import Mathlib

/-!
Verification of `BrowserPool` (src/OpenManus/app/tool/browser_pool.py).

The pool manages a bounded FIFO buffer of browser instances:
* `__init__(max_size=5)` builds `_pool = asyncio.Queue(maxsize=max_size)`,
  `_lock = asyncio.Lock()` and `_initialized = False`;
* `initialize()` returns at once when `_initialized` is true, otherwise runs
  `for _ in range(max_size): browser = await self._create_browser();
  await self._pool.put(browser)` and then sets `_initialized = True`
  (note: it never acquires `_lock`);
* `acquire()` awaits `initialize()` and then `self._pool.get()`;
* `release(b)` awaits `self._pool.put(b)`;
* `close()` runs `while not self._pool.empty(): browser = await
  self._pool.get(); await browser.close()` with no exception handler.

The embedding below represents the pool state explicitly, the queue as a
`List` (front = next `get`, `put` appends at the back), the factory
`_create_browser` as `Nat → Option R` (`none` = the factory raised on that
invocation; the second component of each result counts factory invocations)
and `browser.close` as `R → Bool` (`false` = it raised).  A caller suspended
on an `asyncio` queue operation is an explicit `blocked` outcome, and a
propagating exception an explicit `raised` outcome.  (`initialize` is a Lean
keyword, so the embedding of `BrowserPool.initialize` is named `initPool`.)
-/

namespace BrowserPool

universe u

variable {R : Type u}

/-- The mutable fields of a `BrowserPool` object.  `_lock` and
`_browser_config` carry no state relevant to the pool contract (`_lock` is in
particular never acquired anywhere in the source), so they are not
represented. -/
structure Pool (R : Type u) where
  max_size : Nat
  pool : List R
  initialized : Bool
  deriving Repr, DecidableEq

/-- Embeds `BrowserPool.__init__` (the Python default for `max_size` is `5`): an
empty queue of capacity `max_size`, not yet initialized.  The constructor
performs no validation of `max_size`. -/
def mkPool (R : Type u) (max_size : Nat) : Pool R :=
  { max_size := max_size, pool := [], initialized := false }

/-- Embeds `asyncio.Queue.full()`: a queue with `maxsize <= 0` is unbounded and
never full; otherwise it is full when `qsize() >= maxsize`. -/
def queueFull (maxsize : Nat) (q : List R) : Bool :=
  maxsize != 0 && decide (maxsize ≤ q.length)

/-- Outcome of a coroutine returning no value: it returned, it suspended
forever on a queue operation, or an exception propagated out of it.  Each
outcome carries the pool state at that point. -/
inductive Res (R : Type u) where
  | ok : Pool R → Res R
  | blocked : Pool R → Res R
  | raised : Pool R → Res R
  deriving Repr, DecidableEq

/-- The pool state carried by a `Res`. -/
def Res.state : Res R → Pool R
  | .ok s => s
  | .blocked s => s
  | .raised s => s

/-- The `for _ in range(max_size)` loop of `BrowserPool.initialize`: `calls`
counts factory invocations so far, the `Nat` argument is the remaining
iteration count.  Each iteration invokes the factory (an exception
propagates), then `put`s the browser (suspending if the queue is full). -/
def initLoop (g : Nat → Option R) : Nat → Nat → Pool R → Res R × Nat
  | calls, 0, s => (Res.ok { s with initialized := true }, calls)
  | calls, n + 1, s =>
    match g calls with
    | none => (Res.raised s, calls + 1)
    | some b =>
      if queueFull s.max_size s.pool then (Res.blocked s, calls + 1)
      else initLoop g (calls + 1) n { s with pool := s.pool ++ [b] }

/-- Embeds `BrowserPool.initialize`: return at once when `_initialized`, otherwise
create `max_size` browsers, enqueue each, then set `_initialized = True`.
The source acquires no lock here. -/
def initPool (g : Nat → Option R) (s : Pool R) : Res R × Nat :=
  if s.initialized then (Res.ok s, 0)
  else initLoop g 0 s.max_size s

/-- Outcome of `acquire`: a browser was handed out, or the caller is
suspended (inside `initialize` or on `get` from an empty queue), or an
exception propagated out of `initialize`. -/
inductive AcqRes (R : Type u) where
  | got : R → Pool R → AcqRes R
  | blocked : Pool R → AcqRes R
  | raised : Pool R → AcqRes R
  deriving Repr, DecidableEq

/-- Embeds `BrowserPool.acquire`: `await self.initialize()`, then
`await self._pool.get()` (suspending when the queue is empty). -/
def acquire (g : Nat → Option R) (s : Pool R) : AcqRes R × Nat :=
  match initPool g s with
  | (Res.ok s', n) =>
    match s'.pool with
    | [] => (AcqRes.blocked s', n)
    | b :: rest => (AcqRes.got b { s' with pool := rest }, n)
  | (Res.blocked s', n) => (AcqRes.blocked s', n)
  | (Res.raised s', n) => (AcqRes.raised s', n)

/-- Embeds `BrowserPool.release`: `await self._pool.put(browser)` — appends to the
back of the queue, suspending the caller when the queue is full. -/
def release (b : R) (s : Pool R) : Res R :=
  if queueFull s.max_size s.pool then Res.blocked s
  else Res.ok { s with pool := s.pool ++ [b] }

/-- The `while not self._pool.empty()` drain of `close`, on the queue
contents: returns the queue contents left when the loop stops, the list of
browsers `close` was invoked on (in order), and whether the loop ran to
completion (`false` = a `browser.close()` call raised, which propagates —
the source has no exception handler around it). -/
def closeGo (d : R → Bool) : List R → List R × List R × Bool
  | [] => ([], [], true)
  | b :: rest =>
    if d b then
      let (rem, ds, ok) := closeGo d rest
      (rem, b :: ds, ok)
    else (rest, [b], false)

/-- Embeds `BrowserPool.close`: drain the queue, calling `browser.close()` on each
browser removed.  No other field of the pool is touched. -/
def close (d : R → Bool) (s : Pool R) : Pool R × List R × Bool :=
  let (rem, ds, ok) := closeGo d s.pool
  ({ s with pool := rem }, ds, ok)

/-- The browsers a run of the `initialize` loop produces when the factory
succeeds on every invocation: invocation number `calls` yields `f calls`. -/
def createdList (f : Nat → R) : Nat → Nat → List R
  | _, 0 => []
  | calls, n + 1 => f calls :: createdList f (calls + 1) n

/-! ### Sequential operation traces

One caller at a time runs one pool method to completion (or to a suspension,
after which that caller stays suspended and other callers go on).  `created`
counts factory invocations over the whole trace and `checkedOut` counts
browsers currently held by callers — both are observer counters, not pool
fields.  The factory is stateful, as the source's browser launcher is: it is
consulted at the trace-global invocation index (`created` many invocations
happened before the current operation, so that operation's invocation `i`
evaluates `g (created + i)`), and so it can raise on one warm-up attempt and
succeed on a later one. -/

/-- One pool operation: `warmUp` is `initialize()`, the rest are the
like-named methods.  `release b` carries the value handed back. -/
inductive Op (R : Type u) where
  | warmUp : Op R
  | acquire : Op R
  | release : R → Op R
  | shutdown : Op R
  deriving Repr, DecidableEq

/-- A pool together with the two observer counters. -/
structure TraceState (R : Type u) where
  ps : Pool R
  created : Nat
  checkedOut : Nat
  deriving Repr, DecidableEq

/-- Run one operation, with factory `g` (consulted at the trace-global
invocation index, `none` = it raised) and `browser.close` `d`.  An operation
that suspends leaves the pool state as it stands at the suspension point. -/
def stepTrace (g : Nat → Option R) (d : R → Bool) (ts : TraceState R) : Op R → TraceState R
  | Op.warmUp =>
    let r := initPool (fun i => g (ts.created + i)) ts.ps
    { ts with ps := r.1.state, created := ts.created + r.2 }
  | Op.acquire =>
    let r := acquire (fun i => g (ts.created + i)) ts.ps
    match r.1 with
    | AcqRes.got _ s' =>
      { ps := s', created := ts.created + r.2, checkedOut := ts.checkedOut + 1 }
    | AcqRes.blocked s' => { ts with ps := s', created := ts.created + r.2 }
    | AcqRes.raised s' => { ts with ps := s', created := ts.created + r.2 }
  | Op.release b =>
    match release b ts.ps with
    | Res.ok s' => { ts with ps := s', checkedOut := ts.checkedOut - 1 }
    | r => { ts with ps := r.state }
  | Op.shutdown => { ts with ps := (close d ts.ps).1 }

/-- Run a whole sequence of operations. -/
def runTrace (g : Nat → Option R) (d : R → Bool) : TraceState R → List (Op R) → TraceState R
  | ts, [] => ts
  | ts, op :: ops => runTrace g d (stepTrace g d ts op) ops

/-- The validity guard of one operation: a `release` must hand back a
browser some caller holds (the source's contract: `release` is only called
with a browser previously acquired from this pool and not yet released);
every other operation is unrestricted. -/
def relGuard (ts : TraceState R) : Op R → Bool
  | Op.release _ => decide (0 < ts.checkedOut)
  | _ => true

/-- A trace is valid when every operation satisfies `relGuard` in the state
it runs in. -/
def validTrace (g : Nat → Option R) (d : R → Bool) : TraceState R → List (Op R) → Bool
  | _, [] => true
  | ts, op :: ops => relGuard ts op && validTrace g d (stepTrace g d ts op) ops

/-- The trace state of a freshly constructed pool. -/
def freshTrace (R : Type u) (N : Nat) : TraceState R :=
  { ps := mkPool R N, created := 0, checkedOut := 0 }

/-- The inductive invariant of sequential traces over a pool of capacity
`N` when the factory never fails. -/
def PoolInv (N : Nat) (ts : TraceState R) : Prop :=
  ts.ps.max_size = N ∧
  (ts.ps.initialized = false → ts.ps.pool = [] ∧ ts.created = 0 ∧ ts.checkedOut = 0) ∧
  (ts.ps.initialized = true → ts.created = N ∧ ts.ps.pool.length + ts.checkedOut ≤ N)

/-- The inductive invariant of sequential traces over a pool of capacity
`N` for an arbitrary (possibly failing) factory: it bounds the queue length
but not the invocation count, which a failed warm-up followed by a retry can
push past `N`. -/
def PoolLenInv (N : Nat) (ts : TraceState R) : Prop :=
  ts.ps.max_size = N ∧ ts.ps.pool.length ≤ N ∧
  (ts.ps.initialized = false → ts.checkedOut = 0) ∧
  (ts.ps.initialized = true → ts.ps.pool.length + ts.checkedOut ≤ N)

/-! ### Concurrent `initialize` under `asyncio`

Several tasks call `initialize()` on one shared pool.  An `asyncio` task runs
atomically between suspension points; browser creation does I/O, so
`await self._create_browser()` is a suspension point, while `_pool.put` on a
non-full queue and `_pool.get` on a non-empty queue complete without
yielding.  Because the source's `initialize` never acquires `self._lock`,
the segment from the `if self._initialized` check up to the first factory
await runs with no mutual exclusion at all. -/

/-- Where one task stands inside its `initialize()` call. -/
inductive TaskPC where
  | start : TaskPC
  | awaitingFactory : Nat → TaskPC
  | stuckPut : TaskPC
  | done : TaskPC
  deriving Repr, DecidableEq

/-- The shared pool as the concurrent tasks see it; browsers are
interchangeable, so the queue is its size, and `created` counts factory
invocations by every task together. -/
structure ConcPool where
  max_size : Nat
  pool : Nat
  initialized : Bool
  created : Nat
  deriving Repr, DecidableEq

/-- Resume one task and run it to its next suspension point (or to
completion): from `start`, check `_initialized` and launch the first factory
call; from `awaitingFactory i`, take the browser the factory returned, `put`
it (suspending forever if the queue is full — `stuckPut`), and either launch
the next factory call or set `_initialized = True` and return. -/
def concStep (c : ConcPool) : TaskPC → ConcPool × TaskPC
  | TaskPC.start =>
    if c.initialized then (c, TaskPC.done)
    else if c.max_size = 0 then ({ c with initialized := true }, TaskPC.done)
    else ({ c with created := c.created + 1 }, TaskPC.awaitingFactory 0)
  | TaskPC.awaitingFactory i =>
    if c.max_size != 0 && decide (c.max_size ≤ c.pool) then (c, TaskPC.stuckPut)
    else if i + 1 < c.max_size then
      ({ c with pool := c.pool + 1, created := c.created + 1 }, TaskPC.awaitingFactory (i + 1))
    else ({ c with pool := c.pool + 1, initialized := true }, TaskPC.done)
  | pc => (c, pc)

/-- Run the tasks under a schedule: each entry names the task the event loop
resumes next (an out-of-range entry is a no-op). -/
def runSched : List Nat → ConcPool × List TaskPC → ConcPool × List TaskPC
  | [], st => st
  | t :: rest, (c, tasks) =>
    match tasks.get? t with
    | none => runSched rest (c, tasks)
    | some pc =>
      let r := concStep c pc
      runSched rest (r.1, tasks.set t r.2)

end BrowserPool

namespace BrowserPool

variable {R : Type u}

/-! ### Helper lemmas -/

theorem createdList_length (f : Nat → R) : ∀ (n calls : Nat), (createdList f calls n).length = n := by
  intro n
  induction n with
  | zero => intro calls; rfl
  | succ n ih => intro calls; simp [createdList, ih]

theorem closeGo_total (d : R → Bool) (hd : ∀ r, d r = true) :
    ∀ xs : List R, closeGo d xs = ([], xs, true) := by
  intro xs
  induction xs with
  | nil => rfl
  | cons x xs ih => simp [closeGo, hd x, ih]

theorem closeGo_rem_length (d : R → Bool) :
    ∀ xs : List R, (closeGo d xs).1.length ≤ xs.length := by
  intro xs
  induction xs with
  | nil => simp [closeGo]
  | cons x xs ih =>
    by_cases hx : d x = true
    · simpa [closeGo, hx] using Nat.le_succ_of_le ih
    · simp [closeGo, hx]

theorem queueFull_of_lt {m : Nat} {q : List R} (h : q.length < m) :
    queueFull m q = false := by
  simp only [queueFull, Bool.and_eq_false_iff]
  right
  simpa using Nat.not_le.mpr h

theorem initLoop_ok (f : Nat → R) :
    ∀ (n calls : Nat) (s : Pool R), s.pool.length + n ≤ s.max_size →
    initLoop (fun i => some (f i)) calls n s =
      (Res.ok { s with pool := s.pool ++ createdList f calls n, initialized := true },
       calls + n) := by
  intro n
  induction n with
  | zero => intro calls s h; simp [initLoop, createdList]
  | succ n ih =>
    intro calls s h
    have hfull : queueFull s.max_size s.pool = false := queueFull_of_lt (by omega)
    rw [initLoop, hfull]
    simp only [Bool.false_eq_true, if_false]
    rw [ih (calls + 1) { s with pool := s.pool ++ [f calls] } (by simp; omega)]
    simp [createdList]
    omega

theorem initLoop_raised (f : Nat → R) :
    ∀ (n j calls : Nat) (s : Pool R) (g : Nat → Option R), j < n →
    s.pool.length + n ≤ s.max_size →
    (∀ i, i < j → g (calls + i) = some (f (calls + i))) →
    g (calls + j) = none →
    initLoop g calls n s =
      (Res.raised { s with pool := s.pool ++ createdList f calls j }, calls + j + 1) := by
  intro n
  induction n with
  | zero => intro j calls s g hj; omega
  | succ n ih =>
    intro j calls s g hj hlen hsucc hfail
    match j with
    | 0 =>
      have hg : g calls = none := by simpa using hfail
      rw [initLoop, hg]
      simp [createdList]
    | j' + 1 =>
      have hg : g calls = some (f calls) := by simpa using hsucc 0 (by omega)
      have hfull : queueFull s.max_size s.pool = false := queueFull_of_lt (by omega)
      rw [initLoop, hg, hfull]
      simp only [Bool.false_eq_true, if_false]
      rw [ih j' (calls + 1) { s with pool := s.pool ++ [f calls] } g (by omega) (by simp; omega)
        (fun i hi => by
          have := hsucc (i + 1) (by omega)
          simpa [Nat.add_assoc, Nat.add_comm 1 i] using this)
        (by
          have h1 : calls + 1 + j' = calls + (j' + 1) := by omega
          rw [h1]; exact hfail)]
      simp [createdList]
      omega

theorem initLoop_ge (g : Nat → Option R) :
    ∀ (n calls : Nat) (s : Pool R), calls ≤ (initLoop g calls n s).2 := by
  intro n
  induction n with
  | zero => intro calls s; simp [initLoop]
  | succ n ih =>
    intro calls s
    rw [initLoop]
    rcases hg : g calls with _ | b
    · simp
    · by_cases hfull : queueFull s.max_size s.pool
      · simp [hfull]
      · simp only [hfull, Bool.false_eq_true, if_false]
        exact le_trans (Nat.le_succ calls) (ih (calls + 1) _)

theorem initLoop_pos (g : Nat → Option R) (n calls : Nat) (s : Pool R) :
    calls < (initLoop g calls (n + 1) s).2 := by
  rw [initLoop]
  rcases hg : g calls with _ | b
  · simp
  · by_cases hfull : queueFull s.max_size s.pool
    · simp [hfull]
    · simp only [hfull, Bool.false_eq_true, if_false]
      exact lt_of_lt_of_le (Nat.lt_succ_self calls) (initLoop_ge g n (calls + 1) _)

/-! ### Claim theorems -/

/-- C2: after the first (sequential) `initialize()` on a fresh pool of
capacity `N` with a never-failing factory, the factory has been invoked
exactly `N` times, `_pool` holds `N` browsers, and `_initialized` is
true. -/
theorem initPool_fresh_creates_capacity (R : Type u) (N : Nat) (f : Nat → R) :
    (initPool (fun i => some (f i)) (mkPool R N)).2 = N ∧
    ∃ s', (initPool (fun i => some (f i)) (mkPool R N)).1 = Res.ok s' ∧
      s'.pool.length = N ∧ s'.initialized = true := by
  have h := initLoop_ok f N 0 (mkPool R N) (by simp [mkPool])
  rw [initPool] at *
  simp only [mkPool, Bool.false_eq_true, if_false] at h ⊢
  rw [h]
  exact ⟨by simp, _, rfl, by simp [createdList_length], rfl⟩

/-- C8: `initialize()` is idempotent — whenever `_initialized` is already
true it returns at once with no factory invocation and no state change, so a
second sequential call leaves the pool exactly as the first did. -/
theorem initPool_idempotent (g g2 : Nat → Option R) (s : Pool R)
    (h : s.initialized = true) :
    initPool g s = (Res.ok s, 0) ∧
    initPool g2 (initPool g s).1.state = (Res.ok s, 0) := by
  have h1 : initPool g s = (Res.ok s, 0) := by rw [initPool, h]; simp
  exact ⟨h1, by rw [h1]; simp only [Res.state]; rw [initPool, h]; simp⟩

/-- Witness for C8 at a concrete pool. -/
theorem initPool_idempotent_witness :
    initPool (fun _ => none) ({ max_size := 2, pool := [5, 7], initialized := true } : Pool Nat) =
      (Res.ok { max_size := 2, pool := [5, 7], initialized := true }, 0) ∧
    initPool (fun _ => none)
        ((initPool (fun _ => none)
          ({ max_size := 2, pool := [5, 7], initialized := true } : Pool Nat)).1.state) =
      (Res.ok { max_size := 2, pool := [5, 7], initialized := true }, 0) :=
  initPool_idempotent (fun _ => none) (fun _ => none) _ rfl

/-- C5: when the queue holds strictly fewer browsers than `max_size`,
`release` appends the browser and returns — the full-queue suspension branch
of `asyncio.Queue.put` is not taken. -/
theorem release_nonblocking (b : R) (s : Pool R) (h : s.pool.length < s.max_size) :
    release b s = Res.ok { s with pool := s.pool ++ [b] } := by
  rw [release, queueFull_of_lt h]
  simp

/-- Witness for C5 at a concrete pool. -/
theorem release_nonblocking_witness :
    ([5] : List Nat).length < 2 ∧
    release 9 ({ max_size := 2, pool := [5], initialized := true } : Pool Nat) =
      Res.ok { max_size := 2, pool := [5, 9], initialized := true } :=
  ⟨by decide, release_nonblocking 9 _ (by decide)⟩

/-- C3: with a never-failing `browser.close`, `close()` invokes it exactly
once on each browser in the queue at drain time (in order), the queue is
empty afterwards, and a browser not in the queue (one checked out) is never
disposed. -/
theorem close_disposes_each_available_once (d : R → Bool) (s : Pool R)
    (hd : ∀ r, d r = true) :
    close d s = ({ s with pool := [] }, s.pool, true) ∧
    ∀ r, r ∉ s.pool → r ∉ (close d s).2.1 := by
  have h : close d s = ({ s with pool := [] }, s.pool, true) := by
    rw [close, closeGo_total d hd]
  exact ⟨h, fun r hr => by rw [h]; exact hr⟩

/-- Witness for C3 at a concrete pool. -/
theorem close_disposes_each_available_once_witness :
    close (fun _ => true) ({ max_size := 2, pool := [5, 7], initialized := true } : Pool Nat) =
      ({ max_size := 2, pool := [], initialized := true }, [5, 7], true) ∧
    ∀ r, r ∉ ([5, 7] : List Nat) →
      r ∉ (close (fun _ => true)
        ({ max_size := 2, pool := [5, 7], initialized := true } : Pool Nat)).2.1 :=
  close_disposes_each_available_once (fun _ => true) _ (fun _ => rfl)

/-- C4 (counterexample): on a pool holding browsers `0` then `1`, a
`browser.close()` that raises on `0` halts the drain — `close` propagates
the exception (`false`), browser `1` is never disposed and stays in the
queue, contradicting the claim that the drain continues past a disposal
failure. -/
theorem close_halts_on_dispose_failure_cex :
    close (fun r => r != 0) ({ max_size := 2, pool := [0, 1], initialized := true } : Pool Nat) =
      ({ max_size := 2, pool := [1], initialized := true }, [0], false) ∧
    (1 : Nat) ∉ (close (fun r => r != 0)
      ({ max_size := 2, pool := [0, 1], initialized := true } : Pool Nat)).2.1 := by
  decide

/-- C4 (amended): if `browser.close()` raises on some browser during the
`close()` drain, the exception propagates to the caller and the drain halts:
the browsers before the failing one were each disposed once, the failing one
was removed from the queue, and every browser after it remains in the queue
undisposed. -/
theorem close_dispose_failure_propagates (d : R → Bool) (m : Nat) (ini : Bool)
    (xs ys : List R) (r : R) (hxs : ∀ x ∈ xs, d x = true) (hr : d r = false) :
    close d { max_size := m, pool := xs ++ r :: ys, initialized := ini } =
      ({ max_size := m, pool := ys, initialized := ini }, xs ++ [r], false) := by
  have hgo : ∀ xs : List R, (∀ x ∈ xs, d x = true) →
      closeGo d (xs ++ r :: ys) = (ys, xs ++ [r], false) := by
    intro xs hxs
    induction xs with
    | nil => simp [closeGo, hr]
    | cons x xs ih =>
      have hx : d x = true := hxs x (by simp)
      simp [closeGo, hx, ih (fun y hy => hxs y (by simp [hy]))]
  rw [close, hgo xs hxs]

/-- Witness for the amended C4 at a concrete pool. -/
theorem close_dispose_failure_propagates_witness :
    (∀ x ∈ ([4] : List Nat), (fun r => r != 0) x = true) ∧
    (fun r => r != (0 : Nat)) 0 = false ∧
    close (fun r => r != 0) { max_size := 3, pool := [4] ++ 0 :: [6], initialized := true } =
      ({ max_size := 3, pool := [6], initialized := true }, [4] ++ [0], false) :=
  ⟨by decide, by decide,
    close_dispose_failure_propagates (fun r => r != 0) 3 true [4] [6] 0 (by decide) (by decide)⟩

/-- C9: `close()` (with a never-failing `browser.close`) leaves
`_initialized` true and `max_size` unchanged while emptying the queue, so a
subsequent `acquire()` runs no creation pass (zero factory invocations) and
suspends forever on `get` from the empty queue. -/
theorem close_preserves_initialized_acquire_blocks (d : R → Bool) (s : Pool R)
    (hd : ∀ r, d r = true) (h : s.initialized = true) :
    (close d s).1.initialized = true ∧ (close d s).1.max_size = s.max_size ∧
    (close d s).1.pool = [] ∧
    ∀ g : Nat → Option R, acquire g (close d s).1 = (AcqRes.blocked (close d s).1, 0) := by
  have hc : close d s = ({ s with pool := [] }, s.pool, true) := by
    rw [close, closeGo_total d hd]
  rw [hc]
  refine ⟨h, rfl, rfl, fun g => ?_⟩
  rw [acquire, initPool, h]
  simp

/-- Witness for C9 at a concrete pool. -/
theorem close_preserves_initialized_acquire_blocks_witness :
    (close (fun _ => true)
      ({ max_size := 2, pool := [5, 7], initialized := true } : Pool Nat)).1.initialized = true ∧
    (close (fun _ => true)
      ({ max_size := 2, pool := [5, 7], initialized := true } : Pool Nat)).1.max_size = 2 ∧
    (close (fun _ => true)
      ({ max_size := 2, pool := [5, 7], initialized := true } : Pool Nat)).1.pool = [] ∧
    ∀ g : Nat → Option Nat,
      acquire g (close (fun _ => true)
        ({ max_size := 2, pool := [5, 7], initialized := true } : Pool Nat)).1 =
      (AcqRes.blocked (close (fun _ => true)
        ({ max_size := 2, pool := [5, 7], initialized := true } : Pool Nat)).1, 0) :=
  close_preserves_initialized_acquire_blocks (fun _ => true) _ (fun _ => rfl) rfl

/-- C7: if the factory raises on invocation `j < N` during `initialize()` on
a fresh pool of capacity `N`, the exception propagates (`Res.raised`),
`_initialized` stays false — so any later `initialize()`/`acquire()` enters
the creation loop again and invokes the factory at least once more — and the
factory was invoked exactly `j + 1` times (the `j` successes plus the
failing call). -/
theorem initPool_factory_failure (R : Type u) (N j : Nat) (f : Nat → R) (hj : j < N) :
    (∃ s', (initPool (fun i => if i < j then some (f i) else none) (mkPool R N)).1 =
        Res.raised s' ∧ s'.initialized = false ∧
        ∀ g2 : Nat → Option R, 0 < (initPool g2 s').2) ∧
    (initPool (fun i => if i < j then some (f i) else none) (mkPool R N)).2 = j + 1 := by
  have h := initLoop_raised f N j 0 (mkPool R N) (fun i => if i < j then some (f i) else none)
    hj (by simp [mkPool]) (fun i hi => by simp [hi]) (by simp)
  rw [initPool]
  simp only [mkPool, Bool.false_eq_true, if_false] at h ⊢
  rw [h]
  refine ⟨⟨_, rfl, rfl, fun g2 => ?_⟩, by simp⟩
  rw [initPool]
  simp only [Bool.false_eq_true, if_false]
  obtain ⟨n, hn⟩ : ∃ n, N = n + 1 := ⟨N - 1, by omega⟩
  simp only [mkPool, hn]
  exact lt_of_le_of_lt (Nat.zero_le _) (initLoop_pos g2 n 0 _)

/-- Witness for C7 at a concrete pool. -/
theorem initPool_factory_failure_witness :
    (1 : Nat) < 3 ∧
    ((∃ s', (initPool (fun i => if i < 1 then some (i + 10) else none) (mkPool Nat 3)).1 =
        Res.raised s' ∧ s'.initialized = false ∧
        ∀ g2 : Nat → Option Nat, 0 < (initPool g2 s').2) ∧
     (initPool (fun i => if i < 1 then some (i + 10) else none) (mkPool Nat 3)).2 = 1 + 1) :=
  ⟨by decide, initPool_factory_failure Nat 3 1 (fun i => i + 10) (by decide)⟩

/-- C10: `max_size = 0` is accepted without validation: the constructor
builds an unbounded queue (`asyncio.Queue` with `maxsize <= 0` is never
full, so `release` always succeeds at any queue length), `initialize()`
invokes the factory zero times yet still sets `_initialized` to true, and
every subsequent `acquire()` suspends forever on the empty queue. -/
theorem mkPool_zero_capacity (R : Type u) :
    mkPool R 0 = { max_size := 0, pool := [], initialized := false } ∧
    (∀ q : List R, queueFull 0 q = false) ∧
    (∀ g : Nat → Option R, initPool g (mkPool R 0) =
      (Res.ok { max_size := 0, pool := [], initialized := true }, 0)) ∧
    (∀ g : Nat → Option R,
      acquire g ({ max_size := 0, pool := [], initialized := true } : Pool R) =
        (AcqRes.blocked { max_size := 0, pool := [], initialized := true }, 0)) ∧
    (∀ (b : R) (q : List R),
      release b ({ max_size := 0, pool := q, initialized := true } : Pool R) =
        Res.ok { max_size := 0, pool := q ++ [b], initialized := true }) := by
  refine ⟨rfl, fun q => by simp [queueFull], fun g => ?_, fun g => ?_, fun b q => ?_⟩
  · rw [initPool]
    simp [mkPool, initLoop]
  · rw [acquire, initPool]
    simp
  · rw [release]
    simp [queueFull]

theorem close_eq (d : R → Bool) (s : Pool R) :
    close d s = ({ s with pool := (closeGo d s.pool).1 },
      (closeGo d s.pool).2.1, (closeGo d s.pool).2.2) := by
  rcases hcg : closeGo d s.pool with ⟨rem, ds, ok⟩
  rw [close, hcg]

theorem initLoop_ok_spec (g : Nat → Option R) :
    ∀ (n calls : Nat) (s s' : Pool R), (initLoop g calls n s).1 = Res.ok s' →
    s'.max_size = s.max_size ∧ s'.initialized = true ∧
    s'.pool.length = s.pool.length + n ∧
    (n = 0 ∨ s.max_size = 0 ∨ s'.pool.length ≤ s.max_size) := by
  intro n
  induction n with
  | zero =>
    intro calls s s' h
    rw [initLoop] at h
    have h2 : Res.ok { s with initialized := true } = Res.ok s' := h
    injection h2 with h3
    subst h3
    exact ⟨rfl, rfl, rfl, Or.inl rfl⟩
  | succ n ih =>
    intro calls s s' h
    rw [initLoop] at h
    rcases hg0 : g calls with _ | b
    · rw [hg0] at h
      exact Res.noConfusion (show Res.raised s = Res.ok s' from h)
    · rw [hg0] at h
      have h' : (if queueFull s.max_size s.pool then (Res.blocked s, calls + 1)
          else initLoop g (calls + 1) n { s with pool := s.pool ++ [b] }).1 = Res.ok s' := h
      by_cases hfull : queueFull s.max_size s.pool
      · rw [if_pos hfull] at h'
        exact Res.noConfusion (show Res.blocked s = Res.ok s' from h')
      · rw [if_neg hfull] at h'
        obtain ⟨h1, h2, h3, h4⟩ := ih (calls + 1) { s with pool := s.pool ++ [b] } s' h'

        have hq : s.max_size = 0 ∨ s.pool.length < s.max_size := by
          have hf : queueFull s.max_size s.pool = false := by simpa using hfull
          simp [queueFull] at hf
          omega
        have h3' : s'.pool.length = (s.pool ++ [b]).length + n := h3
        simp only [List.length_append, List.length_cons, List.length_nil] at h3'
        refine ⟨h1, h2, by omega, ?_⟩
        rcases h4 with h4 | h4 | h4
        · subst h4
          rcases hq with hq | hq
          · exact Or.inr (Or.inl hq)
          · exact Or.inr (Or.inr (by omega))
        · exact Or.inr (Or.inl h4)
        · exact Or.inr (Or.inr h4)

theorem initLoop_blocked_spec (g : Nat → Option R) :
    ∀ (n calls : Nat) (s s' : Pool R), (initLoop g calls n s).1 = Res.blocked s' →
    s'.max_size = s.max_size ∧ s'.initialized = s.initialized ∧ s.max_size ≠ 0 ∧
    s'.pool.length ≤ max s.pool.length s.max_size := by
  intro n
  induction n with
  | zero =>
    intro calls s s' h
    rw [initLoop] at h
    exact Res.noConfusion (show Res.ok { s with initialized := true } = Res.blocked s' from h)
  | succ n ih =>
    intro calls s s' h
    rw [initLoop] at h
    rcases hg0 : g calls with _ | b
    · rw [hg0] at h
      exact Res.noConfusion (show Res.raised s = Res.blocked s' from h)
    · rw [hg0] at h
      have h' : (if queueFull s.max_size s.pool then (Res.blocked s, calls + 1)
          else initLoop g (calls + 1) n { s with pool := s.pool ++ [b] }).1 = Res.blocked s' := h
      by_cases hfull : queueFull s.max_size s.pool
      · rw [if_pos hfull] at h'
        have h2 : Res.blocked s = Res.blocked s' := h'
        injection h2 with h3
        subst h3
        have hmne : s.max_size ≠ 0 := by
          have hf := hfull
          simp [queueFull] at hf
          omega
        exact ⟨rfl, rfl, hmne, le_max_left _ _⟩
      · rw [if_neg hfull] at h'
        obtain ⟨h1, h2, h3, h4⟩ := ih (calls + 1) { s with pool := s.pool ++ [b] } s' h'

        have h3' : s.max_size ≠ 0 := h3
        have hlt : s.pool.length < s.max_size := by
          have hf : queueFull s.max_size s.pool = false := by simpa using hfull
          simp [queueFull] at hf
          omega
        have h4' : s'.pool.length ≤ max ((s.pool ++ [b]).length) s.max_size := h4
        simp only [List.length_append, List.length_cons, List.length_nil] at h4'
        rw [max_eq_right (by omega : s.pool.length + (0 + 1) ≤ s.max_size)] at h4'
        exact ⟨h1, h2, h3', le_trans h4' (le_max_right _ _)⟩

theorem initLoop_raised_spec (g : Nat → Option R) :
    ∀ (n calls : Nat) (s s' : Pool R), s.max_size ≠ 0 →
    (initLoop g calls n s).1 = Res.raised s' →
    s'.max_size = s.max_size ∧ s'.initialized = s.initialized ∧
    s'.pool.length ≤ max s.pool.length s.max_size := by
  intro n
  induction n with
  | zero =>
    intro calls s s' hmne h
    rw [initLoop] at h
    exact Res.noConfusion (show Res.ok { s with initialized := true } = Res.raised s' from h)
  | succ n ih =>
    intro calls s s' hmne h
    rw [initLoop] at h
    rcases hg0 : g calls with _ | b
    · rw [hg0] at h
      have h2 : Res.raised s = Res.raised s' := h
      injection h2 with h3
      subst h3
      exact ⟨rfl, rfl, le_max_left _ _⟩
    · rw [hg0] at h
      have h' : (if queueFull s.max_size s.pool then (Res.blocked s, calls + 1)
          else initLoop g (calls + 1) n { s with pool := s.pool ++ [b] }).1 = Res.raised s' := h
      by_cases hfull : queueFull s.max_size s.pool
      · rw [if_pos hfull] at h'
        exact Res.noConfusion (show Res.blocked s = Res.raised s' from h')
      · rw [if_neg hfull] at h'
        obtain ⟨h1, h2, h3⟩ := ih (calls + 1) { s with pool := s.pool ++ [b] } s' hmne h'

        have hlt : s.pool.length < s.max_size := by
          have hf : queueFull s.max_size s.pool = false := by simpa using hfull
          simp [queueFull] at hf
          omega
        have h3' : s'.pool.length ≤ max ((s.pool ++ [b]).length) s.max_size := h3
        simp only [List.length_append, List.length_cons, List.length_nil] at h3'
        rw [max_eq_right (by omega : s.pool.length + (0 + 1) ≤ s.max_size)] at h3'
        exact ⟨h1, h2, le_trans h3' (le_max_right _ _)⟩

theorem initPool_spec (g : Nat → Option R) (s : Pool R) (hm : s.pool.length ≤ s.max_size) :
    (∀ s', (initPool g s).1 = Res.ok s' → s'.max_size = s.max_size ∧ s'.initialized = true ∧
      s'.pool.length ≤ s.max_size ∧ (s.initialized = true → s' = s)) ∧
    (∀ s', (initPool g s).1 = Res.blocked s' → s.initialized = false ∧ s'.max_size = s.max_size ∧
      s'.initialized = false ∧ s'.pool.length ≤ s.max_size) ∧
    (∀ s', (initPool g s).1 = Res.raised s' → s.initialized = false ∧ s'.max_size = s.max_size ∧
      s'.initialized = false ∧ s'.pool.length ≤ s.max_size) := by
  cases hi : s.initialized with
  | true =>
    have he : initPool g s = (Res.ok s, 0) := by rw [initPool, hi]; simp
    refine ⟨?_, ?_, ?_⟩
    · intro s' h
      rw [he] at h
      have h2 : Res.ok s = Res.ok s' := h
      injection h2 with h3
      subst h3
      exact ⟨rfl, hi, hm, fun _ => rfl⟩
    · intro s' h
      rw [he] at h
      exact Res.noConfusion (show Res.ok s = Res.blocked s' from h)
    · intro s' h
      rw [he] at h
      exact Res.noConfusion (show Res.ok s = Res.raised s' from h)
  | false =>
    have he : initPool g s = initLoop g 0 s.max_size s := by
      rw [initPool, hi]
      simp
    refine ⟨?_, ?_, ?_⟩
    · intro s' h
      rw [he] at h
      obtain ⟨h1, h2, h3, h4⟩ := initLoop_ok_spec g s.max_size 0 s s' h
      refine ⟨h1, h2, ?_, fun hcon => absurd hcon (by simp [hi])⟩
      rcases h4 with h4 | h4 | h4
      · omega
      · omega
      · exact h4
    · intro s' h
      rw [he] at h
      obtain ⟨h1, h2, _, h4⟩ := initLoop_blocked_spec g s.max_size 0 s s' h
      refine ⟨rfl, h1, by rw [h2, hi], ?_⟩
      rw [max_eq_right hm] at h4
      exact h4
    · intro s' h
      rw [he] at h
      rcases hms : s.max_size with _ | m
      · rw [hms] at h
        rw [initLoop] at h
        exact Res.noConfusion (show Res.ok { s with initialized := true } = Res.raised s' from h)
      · rw [hms] at h
        obtain ⟨h1, h2, h3⟩ := initLoop_raised_spec g (m + 1) 0 s s' (by rw [hms]; simp) h
        rw [hms] at h1
        refine ⟨rfl, h1, by rw [h2, hi], ?_⟩
        rw [max_eq_right hm, hms] at h3
        exact h3

theorem acquire_spec (g : Nat → Option R) (s : Pool R) :
    (∀ b s', (acquire g s).1 = AcqRes.got b s' →
      ∃ s0, (initPool g s).1 = Res.ok s0 ∧ s0.pool = b :: s'.pool ∧
        s'.max_size = s0.max_size ∧ s'.initialized = s0.initialized) ∧
    (∀ s', (acquire g s).1 = AcqRes.blocked s' →
      ((initPool g s).1 = Res.ok s' ∧ s'.pool = []) ∨ (initPool g s).1 = Res.blocked s') ∧
    (∀ s', (acquire g s).1 = AcqRes.raised s' → (initPool g s).1 = Res.raised s') := by
  rcases hip : initPool g s with ⟨r, n⟩
  rcases r with ⟨s0⟩ | ⟨s0⟩ | ⟨s0⟩
  · obtain ⟨m0, pl0, i0⟩ := s0
    rcases pl0 with _ | ⟨b0, rest⟩
    · have ha : acquire g s =
          (AcqRes.blocked { max_size := m0, pool := [], initialized := i0 }, n) := by
        rw [acquire, hip]
      refine ⟨?_, ?_, ?_⟩
      · intro b s' hgot
        rw [ha] at hgot
        exact AcqRes.noConfusion (show AcqRes.blocked _ = AcqRes.got b s' from hgot)
      · intro s' hb
        rw [ha] at hb
        have h2 : AcqRes.blocked { max_size := m0, pool := [], initialized := i0 } =
            AcqRes.blocked s' := hb
        injection h2 with h3
        subst h3
        exact Or.inl ⟨rfl, rfl⟩
      · intro s' hr
        rw [ha] at hr
        exact AcqRes.noConfusion (show AcqRes.blocked _ = AcqRes.raised s' from hr)
    · have ha : acquire g s =
          (AcqRes.got b0 { max_size := m0, pool := rest, initialized := i0 }, n) := by
        rw [acquire, hip]
      refine ⟨?_, ?_, ?_⟩
      · intro b s' hgot
        rw [ha] at hgot
        have h2 : AcqRes.got b0 { max_size := m0, pool := rest, initialized := i0 } =
            AcqRes.got b s' := hgot
        injection h2 with hb hs
        subst hb
        subst hs
        exact ⟨{ max_size := m0, pool := b0 :: rest, initialized := i0 }, rfl, rfl, rfl, rfl⟩
      · intro s' hb
        rw [ha] at hb
        exact AcqRes.noConfusion (show AcqRes.got b0 _ = AcqRes.blocked s' from hb)
      · intro s' hr
        rw [ha] at hr
        exact AcqRes.noConfusion (show AcqRes.got b0 _ = AcqRes.raised s' from hr)
  · have ha : acquire g s = (AcqRes.blocked s0, n) := by rw [acquire, hip]
    refine ⟨?_, ?_, ?_⟩
    · intro b s' hgot
      rw [ha] at hgot
      exact AcqRes.noConfusion (show AcqRes.blocked s0 = AcqRes.got b s' from hgot)
    · intro s' hb
      rw [ha] at hb
      have h2 : AcqRes.blocked s0 = AcqRes.blocked s' := hb
      injection h2 with h3
      subst h3
      exact Or.inr rfl
    · intro s' hr
      rw [ha] at hr
      exact AcqRes.noConfusion (show AcqRes.blocked s0 = AcqRes.raised s' from hr)
  · have ha : acquire g s = (AcqRes.raised s0, n) := by rw [acquire, hip]
    refine ⟨?_, ?_, ?_⟩
    · intro b s' hgot
      rw [ha] at hgot
      exact AcqRes.noConfusion (show AcqRes.raised s0 = AcqRes.got b s' from hgot)
    · intro s' hb
      rw [ha] at hb
      exact AcqRes.noConfusion (show AcqRes.raised s0 = AcqRes.blocked s' from hb)
    · intro s' hr
      rw [ha] at hr
      have h2 : AcqRes.raised s0 = AcqRes.raised s' := hr
      injection h2 with h3
      subst h3
      rfl

theorem stepTrace_inv (g : Nat → Option R) (f : Nat → R) (hg : ∀ i, g i = some (f i))
    (d : R → Bool) {N : Nat} {ts : TraceState R} {op : Op R}
    (hinv : PoolInv N ts) (hrel : ∀ b, op = Op.release b → 0 < ts.checkedOut) :
    PoolInv N (stepTrace g d ts op) := by
  obtain ⟨⟨ms, pl, ini⟩, cre, chk⟩ := ts
  obtain ⟨hmax, hfalse, htrue⟩ := hinv
  have hm : ms = N := hmax
  subst hm
  have hfalse2 : ini = false → pl = [] ∧ cre = 0 ∧ chk = 0 := hfalse
  have htrue2 : ini = true → cre = ms ∧ pl.length + chk ≤ ms := htrue
  have hrel2 : ∀ b, op = Op.release b → 0 < chk := hrel
  clear hmax hfalse htrue hrel
  cases op with
  | warmUp =>
    cases ini with
    | true =>
      exact ⟨rfl, fun h => Bool.noConfusion h, fun _ => htrue2 rfl⟩
    | false =>
      obtain ⟨hpl, hcre, hchk⟩ := hfalse2 rfl
      subst hpl hcre hchk
      have hinit : initPool (fun i => g (0 + i))
          ({ max_size := ms, pool := [], initialized := false } : Pool R) =
          (Res.ok { max_size := ms, pool := createdList (fun j => f (0 + j)) 0 ms, initialized := true }, 0 + ms) := by
        rw [initPool]
        simp only [Bool.false_eq_true, if_false]
        rw [show (fun i => g (0 + i)) = (fun i => some (f (0 + i))) from
          funext fun i => hg (0 + i)]
        have h := initLoop_ok (fun j => f (0 + j)) ms 0
          ({ max_size := ms, pool := [], initialized := false } : Pool R) (by simp)
        simpa using h
      simp only [stepTrace, hinit, Res.state]
      refine ⟨rfl, fun h => Bool.noConfusion h, fun _ => ⟨?_, ?_⟩⟩
      · show 0 + (0 + ms) = ms
        omega
      · show (createdList (fun j => f (0 + j)) 0 ms).length + 0 ≤ ms
        simp [createdList_length]
  | acquire =>
    cases ini with
    | true =>
      cases pl with
      | nil =>
        exact ⟨rfl, fun h => Bool.noConfusion h, fun _ => htrue2 rfl⟩
      | cons b rest =>
        refine ⟨rfl, fun h => Bool.noConfusion h, fun _ => ⟨(htrue2 rfl).1, ?_⟩⟩
        have hlen := (htrue2 rfl).2
        simp only [List.length_cons] at hlen
        show rest.length + (chk + 1) ≤ ms
        omega
    | false =>
      obtain ⟨hpl, hcre, hchk⟩ := hfalse2 rfl
      subst hpl hcre hchk
      cases ms with
      | zero =>
        exact ⟨rfl, fun h => Bool.noConfusion h, fun _ => ⟨rfl, Nat.le_refl 0⟩⟩
      | succ n =>
        have hinit : initPool (fun i => g (0 + i))
            ({ max_size := n + 1, pool := [], initialized := false } : Pool R) =
            (Res.ok { max_size := n + 1, pool := createdList (fun j => f (0 + j)) 0 (n + 1), initialized := true }, 0 + (n + 1)) := by
          rw [initPool]
          simp only [Bool.false_eq_true, if_false]
          rw [show (fun i => g (0 + i)) = (fun i => some (f (0 + i))) from
            funext fun i => hg (0 + i)]
          have h := initLoop_ok (fun j => f (0 + j)) (n + 1) 0
            ({ max_size := n + 1, pool := [], initialized := false } : Pool R) (by simp)
          simpa using h
        have hacq : acquire (fun i => g (0 + i))
            ({ max_size := n + 1, pool := [], initialized := false } : Pool R) =
            (AcqRes.got (f (0 + 0)) { max_size := n + 1, pool := createdList (fun j => f (0 + j)) 1 n, initialized := true }, 0 + (n + 1)) := by
          rw [acquire, hinit]
          rfl
        simp only [stepTrace, hacq]
        refine ⟨rfl, fun h => Bool.noConfusion h, fun _ => ⟨?_, ?_⟩⟩
        · show 0 + (0 + (n + 1)) = n + 1
          omega
        · show (createdList (fun j => f (0 + j)) 1 n).length + (0 + 1) ≤ n + 1
          simp [createdList_length]
  | release b =>
    have hchk : 0 < chk := hrel2 b rfl
    cases ini with
    | true =>
      obtain ⟨hcre, hlen⟩ := htrue2 rfl
      have hlt : pl.length < ms := by omega
      have hput : release b ({ max_size := ms, pool := pl, initialized := true } : Pool R) =
          Res.ok { max_size := ms, pool := pl ++ [b], initialized := true } := by
        rw [release, queueFull_of_lt hlt]
        simp
      simp only [stepTrace, hput]
      refine ⟨rfl, fun h => Bool.noConfusion h, fun _ => ⟨hcre, ?_⟩⟩
      show (pl ++ [b]).length + (chk - 1) ≤ ms
      simp only [List.length_append, List.length_cons, List.length_nil]
      omega
    | false =>
      obtain ⟨_, _, hchk0⟩ := hfalse2 rfl
      exact absurd hchk (by omega)
  | shutdown =>
    cases ini with
    | true =>
      obtain ⟨hcre, hlen⟩ := htrue2 rfl
      have hrem := closeGo_rem_length d pl
      simp only [stepTrace, close_eq]
      refine ⟨rfl, fun h => Bool.noConfusion h, fun _ => ⟨hcre, ?_⟩⟩
      show (closeGo d pl).1.length + chk ≤ ms
      omega
    | false =>
      obtain ⟨hpl, hcre, hchk⟩ := hfalse2 rfl
      subst hpl hcre hchk
      simp only [stepTrace, close, closeGo]
      exact ⟨rfl, fun _ => ⟨rfl, rfl, rfl⟩, fun h => Bool.noConfusion h⟩

theorem runTrace_inv (g : Nat → Option R) (f : Nat → R) (hg : ∀ i, g i = some (f i))
    (d : R → Bool) {N : Nat} :
    ∀ (ops : List (Op R)) (ts : TraceState R), PoolInv N ts →
    validTrace g d ts ops = true → PoolInv N (runTrace g d ts ops) := by
  intro ops
  induction ops with
  | nil => intro ts h _; exact h
  | cons op ops ih =>
    intro ts h hv
    rw [validTrace, Bool.and_eq_true] at hv
    refine ih _ (stepTrace_inv g f hg d h ?_) hv.2
    intro b hb
    subst hb
    have hgd := hv.1
    simp only [relGuard, decide_eq_true_eq] at hgd
    exact hgd

theorem stepTrace_len_inv (g : Nat → Option R) (d : R → Bool) {N : Nat} {ts : TraceState R}
    {op : Op R} (hinv : PoolLenInv N ts) (hrel : ∀ b, op = Op.release b → 0 < ts.checkedOut) :
    PoolLenInv N (stepTrace g d ts op) := by
  obtain ⟨⟨ms, pl, ini⟩, cre, chk⟩ := ts
  obtain ⟨hmax, hlen, hfz, htz⟩ := hinv
  have hm : ms = N := hmax
  subst hm
  have hlen2 : pl.length ≤ ms := hlen
  have hfz2 : ini = false → chk = 0 := hfz
  have htz2 : ini = true → pl.length + chk ≤ ms := htz
  have hrel2 : ∀ b, op = Op.release b → 0 < chk := hrel
  clear hmax hlen hfz htz hrel
  cases op with
  | warmUp =>
    obtain ⟨hok, hbl, hrs⟩ := initPool_spec (fun i => g (cre + i))
      ({ max_size := ms, pool := pl, initialized := ini } : Pool R) hlen2
    rcases hres : (initPool (fun i => g (cre + i))
        ({ max_size := ms, pool := pl, initialized := ini } : Pool R)).1 with ⟨s'⟩ | ⟨s'⟩ | ⟨s'⟩
    · obtain ⟨h1, h2, h3, h4⟩ := hok s' hres
      have h3' : s'.pool.length ≤ ms := h3
      simp only [stepTrace, hres, Res.state]
      refine ⟨h1, h3, fun h => ?_, fun _ => ?_⟩
      · rw [h2] at h
        exact Bool.noConfusion h
      · show s'.pool.length + chk ≤ ms
        cases ini with
        | false =>
          have hchk0 : chk = 0 := hfz2 rfl
          omega
        | true =>
          have h5 : s' = { max_size := ms, pool := pl, initialized := true } := h4 rfl
          rw [h5]
          exact htz2 rfl
    · obtain ⟨h0, h1, h2, h3⟩ := hbl s' hres
      simp only [stepTrace, hres, Res.state]
      refine ⟨h1, h3, fun _ => hfz2 h0, fun h => ?_⟩
      rw [h2] at h
      exact Bool.noConfusion h
    · obtain ⟨h0, h1, h2, h3⟩ := hrs s' hres
      simp only [stepTrace, hres, Res.state]
      refine ⟨h1, h3, fun _ => hfz2 h0, fun h => ?_⟩
      rw [h2] at h
      exact Bool.noConfusion h
  | acquire =>
    obtain ⟨hok, hbl, hrs⟩ := initPool_spec (fun i => g (cre + i))
      ({ max_size := ms, pool := pl, initialized := ini } : Pool R) hlen2
    obtain ⟨hgot, habl, hars⟩ := acquire_spec (fun i => g (cre + i))
      ({ max_size := ms, pool := pl, initialized := ini } : Pool R)
    rcases hacq : (acquire (fun i => g (cre + i))
        ({ max_size := ms, pool := pl, initialized := ini } : Pool R)).1 with ⟨b, s'⟩ | ⟨s'⟩ | ⟨s'⟩
    · obtain ⟨s0, hip, hps0, hmax', hini'⟩ := hgot b s' hacq
      obtain ⟨h1, h2, h3, h4⟩ := hok s0 hip
      have h3' : s0.pool.length ≤ ms := h3
      have hlenrel : s0.pool.length = s'.pool.length + 1 := by rw [hps0]; rfl
      simp only [stepTrace, hacq]
      refine ⟨by rw [hmax', h1], by show s'.pool.length ≤ ms; omega, fun h => ?_, fun _ => ?_⟩
      · rw [hini', h2] at h
        exact Bool.noConfusion h
      · show s'.pool.length + (chk + 1) ≤ ms
        cases ini with
        | false =>
          have hchk0 : chk = 0 := hfz2 rfl
          omega
        | true =>
          have h5 : s0 = { max_size := ms, pool := pl, initialized := true } := h4 rfl
          have h6 := htz2 rfl
          rw [h5] at hlenrel
          have h7 : pl.length = s'.pool.length + 1 := hlenrel
          omega
    · rcases habl s' hacq with ⟨hip, hpool⟩ | hip
      · obtain ⟨h1, h2, h3, h4⟩ := hok s' hip
        simp only [stepTrace, hacq]
        refine ⟨h1, h3, fun h => ?_, fun _ => ?_⟩
        · rw [h2] at h
          exact Bool.noConfusion h
        · show s'.pool.length + chk ≤ ms
          rw [hpool]
          simp only [List.length_nil]
          cases ini with
          | false =>
            have hchk0 : chk = 0 := hfz2 rfl
            omega
          | true =>
            have h6 := htz2 rfl
            omega
      · obtain ⟨h0, h1, h2, h3⟩ := hbl s' hip
        simp only [stepTrace, hacq]
        refine ⟨h1, h3, fun _ => hfz2 h0, fun h => ?_⟩
        rw [h2] at h
        exact Bool.noConfusion h
    · have hip := hars s' hacq
      obtain ⟨h0, h1, h2, h3⟩ := hrs s' hip
      simp only [stepTrace, hacq]
      refine ⟨h1, h3, fun _ => hfz2 h0, fun h => ?_⟩
      rw [h2] at h
      exact Bool.noConfusion h
  | release b =>
    have hchk : 0 < chk := hrel2 b rfl
    cases ini with
    | true =>
      have h6 := htz2 rfl
      have hlt : pl.length < ms := by omega
      have hput : release b ({ max_size := ms, pool := pl, initialized := true } : Pool R) =
          Res.ok { max_size := ms, pool := pl ++ [b], initialized := true } := by
        rw [release, queueFull_of_lt hlt]
        simp
      simp only [stepTrace, hput]
      refine ⟨rfl, ?_, fun h => Bool.noConfusion h, fun _ => ?_⟩
      · show (pl ++ [b]).length ≤ ms
        simp only [List.length_append, List.length_cons, List.length_nil]
        omega
      · show (pl ++ [b]).length + (chk - 1) ≤ ms
        simp only [List.length_append, List.length_cons, List.length_nil]
        omega
    | false =>
      have hchk0 : chk = 0 := hfz2 rfl
      exact absurd hchk (by omega)
  | shutdown =>
    have hrem := closeGo_rem_length d pl
    simp only [stepTrace, close_eq]
    cases ini with
    | true =>
      have h6 := htz2 rfl
      refine ⟨rfl, ?_, fun h => Bool.noConfusion h, fun _ => ?_⟩
      · show (closeGo d pl).1.length ≤ ms
        omega
      · show (closeGo d pl).1.length + chk ≤ ms
        omega
    | false =>
      refine ⟨rfl, ?_, fun _ => hfz2 rfl, fun h => Bool.noConfusion h⟩
      show (closeGo d pl).1.length ≤ ms
      omega

theorem runTrace_len_inv (g : Nat → Option R) (d : R → Bool) {N : Nat} :
    ∀ (ops : List (Op R)) (ts : TraceState R), PoolLenInv N ts →
    validTrace g d ts ops = true → PoolLenInv N (runTrace g d ts ops) := by
  intro ops
  induction ops with
  | nil => intro ts h _; exact h
  | cons op ops ih =>
    intro ts h hv
    rw [validTrace, Bool.and_eq_true] at hv
    refine ih _ (stepTrace_len_inv g d h ?_) hv.2
    intro b hb
    subst hb
    have hgd := hv.1
    simp only [relGuard, decide_eq_true_eq] at hgd
    exact hgd

/-- C6 (counterexample): with capacity 2 and a factory that raises on its
second invocation and succeeds afterwards (as a real browser launcher can),
the valid sequence [warmUp, warmUp] — a failed warm-up followed by a retry —
refutes the claim: the first warm-up leaves its one created browser queued
with `_initialized` still false, and the retry runs the full creation loop
again, creating browsers until its put suspends on the full queue.  The
factory is invoked 4 times (browsers 0, 2 and 3 are constructed) on a
capacity-2 pool, so "resources ever created never exceeds capacity" fails. -/
theorem trace_created_exceeds_capacity_cex :
    validTrace (fun i => if i = 1 then none else some i) (fun _ => true)
      (freshTrace Nat 2) [Op.warmUp, Op.warmUp] = true ∧
    runTrace (fun i => if i = 1 then none else some i) (fun _ => true)
      (freshTrace Nat 2) [Op.warmUp, Op.warmUp] =
      { ps := { max_size := 2, pool := [0, 2], initialized := false },
        created := 4, checkedOut := 0 } ∧
    ¬ ((runTrace (fun i => if i = 1 then none else some i) (fun _ => true)
      (freshTrace Nat 2) [Op.warmUp, Op.warmUp]).created ≤ 2) := by
  decide

/-- C6 (amended): over every valid sequence of
`warmUp`/`acquire`/`release`/`shutdown` operations on a fresh pool of
capacity `N` (valid: each `release` hands back a browser some caller holds),
the queue never holds more than `N` browsers; and provided the factory never
fails, the total number of factory invocations also never exceeds `N`.  With
a factory that can fail, a failed warm-up followed by a retry exceeds the
creation bound (see the counterexample). -/
theorem trace_bounds_with_fallible_factory (R : Type u) (N : Nat) (g : Nat → Option R)
    (d : R → Bool) (ops : List (Op R)) (h : validTrace g d (freshTrace R N) ops = true) :
    (runTrace g d (freshTrace R N) ops).ps.pool.length ≤ N ∧
    ((∀ i, ∃ b, g i = some b) → (runTrace g d (freshTrace R N) ops).created ≤ N) := by
  constructor
  · have hinv0 : PoolLenInv N (freshTrace R N) :=
      ⟨rfl, by simp [freshTrace, mkPool], fun _ => rfl,
        fun h0 => by simp [freshTrace, mkPool] at h0⟩
    exact (runTrace_len_inv g d ops (freshTrace R N) hinv0 h).2.1
  · intro hsome
    choose f hf using hsome
    have hinv0 : PoolInv N (freshTrace R N) :=
      ⟨rfl, fun _ => ⟨rfl, rfl, rfl⟩, fun h0 => by simp [freshTrace, mkPool] at h0⟩
    obtain ⟨hmax, hfalse, htrue⟩ := runTrace_inv g f hf d ops (freshTrace R N) hinv0 h
    by_cases hi : (runTrace g d (freshTrace R N) ops).ps.initialized = true
    · obtain ⟨hcre, _⟩ := htrue hi
      omega
    · have hi' : (runTrace g d (freshTrace R N) ops).ps.initialized = false := by simpa using hi
      obtain ⟨_, hcre, _⟩ := hfalse hi'
      omega

/-- Witness for the amended C6 on a concrete trace. -/
theorem trace_bounds_with_fallible_factory_witness :
    validTrace (fun i => some i) (fun _ => true) (freshTrace Nat 2)
      [Op.warmUp, Op.acquire, Op.release 0, Op.shutdown] = true ∧
    ((runTrace (fun i => some i) (fun _ => true) (freshTrace Nat 2)
        [Op.warmUp, Op.acquire, Op.release 0, Op.shutdown]).ps.pool.length ≤ 2 ∧
      ((∀ i : Nat, ∃ b : Nat, some i = some b) →
        (runTrace (fun i => some i) (fun _ => true) (freshTrace Nat 2)
          [Op.warmUp, Op.acquire, Op.release 0, Op.shutdown]).created ≤ 2)) :=
  ⟨by decide,
    trace_bounds_with_fallible_factory Nat 2 (fun i => some i) (fun _ => true) _ (by decide)⟩

/-- C1: the source's `initialize` acquires no lock, so two tasks whose
factory calls suspend (browser creation does I/O) can both pass the
`_initialized` check: on a capacity-1 pool with two concurrent callers and
the interleaving 0,1,0,1 the factory is invoked twice — not once, as the
claim states — and the second task then suspends forever putting its extra
browser into the already-full queue. -/
theorem concurrent_warmup_duplicates_creation :
    runSched [0, 1, 0, 1]
      ({ max_size := 1, pool := 0, initialized := false, created := 0 },
       [TaskPC.start, TaskPC.start]) =
      ({ max_size := 1, pool := 1, initialized := true, created := 2 },
       [TaskPC.done, TaskPC.stuckPut]) ∧
    ¬ (2 = 1) := by
  decide

end BrowserPool
